import Mathlib

/-!
A shallow embedding of the core logic of the `gh-gist-new` GitHub CLI
extension (`main.go`): turning a local directory into a gist and merging the
gist's git metadata back into the directory.

Conventions of the embedding:
* Go strings and byte slices are byte lists (`GoStr := List Nat`).
* Go errors are the inductive `GoError`. `GoError.linkError` models a
  `*os.LinkError` (the error type `os.Rename` returns on every failure)
  carrying the underlying syscall errno; `GoError.wrapped` models
  `fmt.Errorf` with `%w`; `GoError.simple` models a leaf error. The byte-list
  tags stand in for the Go message text, which no claim inspects.
* Fallible code returns `Except GoError` or `Option GoError`. Where a claim is
  about filesystem state, directory listings are passed and returned
  explicitly as association lists from entry name to subtree.
-/

set_option maxRecDepth 10000

abbrev GoStr : Type := List Nat

inductive GoError : Type where
  | linkError (errno : Nat)
  | simple (tag : GoStr)
  | wrapped (tag : GoStr) (inner : GoError)
deriving DecidableEq

/-- The test `errors.As(err, &linkErr)` in `moveFileOrDir` (main.go:452-455):
it unwraps `err` looking for a `*os.LinkError`. The errno held inside the
`*os.LinkError` is never inspected by the code. -/
def isLinkError : GoError → Bool
  | .linkError _ => true
  | .simple _ => false
  | .wrapped _ e => isLinkError e

/-- Lexicographic byte-wise comparison of Go strings (the `<` operator on Go
strings), the comparator `sort.Slice` uses in `gatherFiles` (main.go:293-295). -/
def strLt : GoStr → GoStr → Bool
  | [], [] => false
  | [], _ :: _ => true
  | _ :: _, [] => false
  | a :: s, b :: t => if a < b then true else if b < a then false else strLt s t

/-- Go `strings.HasPrefix s pre`. -/
def strStartsWith : GoStr → GoStr → Bool
  | _, [] => true
  | [], _ :: _ => false
  | a :: s, b :: p => a == b && strStartsWith s p

/-- Go `strings.HasPrefix(name, ".")`: the first byte is `.` (46). -/
def startsWithDot : GoStr → Bool
  | 46 :: _ => true
  | _ => false

/-- Go `strings.ContainsAny(name, "/\\")`: some byte is `/` (47) or `\` (92). -/
def containsSep (n : GoStr) : Bool :=
  n.any fun b => b == 47 || b == 92

/-- Go `filepath.Join dir name` for an absolute `dir` without a trailing
slash: `dir ++ "/" ++ name`. -/
def joinPath (dir nm : GoStr) : GoStr := dir ++ 47 :: nm

def errEmptyName : GoError := .simple [1]  -- "name cannot be empty"
def errDotDot : GoError := .simple [2]     -- "'..' is not a supported directory name"
def errSep : GoError := .simple [3]        -- "name %q may not contain path separators"
def errDash : GoError := .simple [4]       -- "name %q may not start with '-'"

/-- Embedding of `validateName` (main.go:190-207). The function is pure: it
performs no filesystem access and has no side effects. -/
def validateName (n : GoStr) : Option GoError :=
  if n = [] then some errEmptyName
  else if n = [46] then none
  else if n = [46, 46] then some errDotDot
  else if containsSep n then some errSep
  else if strStartsWith n [45] then some errDash
  else none

/-- A filesystem subtree: a regular file (permission mode, content bytes) or a
directory (permission mode, named children). Symlinks do not occur inside the
cloned `.git` trees the mover of this program is applied to and are not
modeled. -/
inductive FSNode : Type where
  | file (mode : Nat) (content : GoStr)
  | dir (mode : Nat) (entries : List (GoStr × FSNode))

/-- The Linux errno for a cross-device link failure of rename(2). -/
def EXDEV : Nat := 18

def errENOTDIR : GoError := .simple [20]  -- os.ReadDir on a non-directory fails ENOTDIR
def errEISDIR : GoError := .simple [21]   -- io.Copy reading a directory fd fails EISDIR
def tagCopy : GoStr := [99, 111, 112, 121]  -- the "copy: %w" wrapper (main.go:458)

/-- Embedding of `copyFile` (main.go:496-518): byte-exact copy, the source
file's permission mode passed to `os.OpenFile` for the freshly created
destination file. On a directory argument (never reached from `copyDir`, whose
loop sends directories to `copyDir`) the `io.Copy` read fails with EISDIR. -/
def copyFile : FSNode → Except GoError FSNode
  | .file m c => .ok (.file m c)
  | .dir _ _ => .error errEISDIR

mutual

/-- Embedding of `copyDir` (main.go:467-493). On a directory source:
`os.Stat` succeeds, `os.MkdirAll dst srcInfo.Mode()` creates the destination
directory with the source's mode, and every child is copied recursively
(`copyDir` for directories, `copyFile` otherwise). On a regular-file source:
`os.Stat` succeeds, `os.MkdirAll` creates a directory at the destination using
the file's permission bits, and then `os.ReadDir(src)` fails with ENOTDIR, so
the whole copy fails. -/
def copyDir : FSNode → Except GoError FSNode
  | .file _ _ => .error errENOTDIR
  | .dir m es =>
    match copyEntries es with
    | .error e => .error e
    | .ok es2 => .ok (.dir m es2)

/-- The `for _, entry := range entries` loop of `copyDir` (main.go:479-491). -/
def copyEntries : List (GoStr × FSNode) → Except GoError (List (GoStr × FSNode))
  | [] => .ok []
  | (n, child) :: rest =>
    match (match child with | .dir m es => copyDir (.dir m es) | .file m c => copyFile (.file m c)) with
    | .error e => .error e
    | .ok child2 =>
      match copyEntries rest with
      | .error e => .error e
      | .ok rest2 => .ok ((n, child2) :: rest2)

end

/-- Embedding of `moveFileOrDir` (main.go:446-464). `renameResult` is what
`os.Rename src dst` returned: `none` on success, and on failure always a
`*os.LinkError` (`GoError.linkError errno`), per the `os` package. On rename
success the destination simply holds the source subtree. Otherwise the code
runs `errors.As(err, &linkErr)` -- which succeeds for every `*os.LinkError`
regardless of its errno -- and on success falls into copy-then-delete;
`os.RemoveAll(src)` after a successful copy is modeled as succeeding.
`.ok t` means the destination now holds `t` and the source subtree is gone;
`.error e` means the move failed with `e` (and the source was not removed). -/
def moveFileOrDir (renameResult : Option GoError) (src : FSNode) : Except GoError FSNode :=
  match renameResult with
  | none => .ok src
  | some err =>
    if isLinkError err then
      match copyDir src with
      | .error e => .error (.wrapped tagCopy e)
      | .ok t => .ok t
    else .error err

/-- Association-list lookup by name, the view of a directory listing as a
finite map (directory entry names are unique). -/
def lookupKey {β : Type} (k : GoStr) : List (GoStr × β) → Option β
  | [] => none
  | (k2, v) :: rest => if k2 = k then some v else lookupKey k rest

/-- Go map assignment `m[k] = v`: replace the binding if present, else add. -/
def mapUpsert {β : Type} : List (GoStr × β) → GoStr → β → List (GoStr × β)
  | [], k, v => [(k, v)]
  | (k2, v2) :: rest, k, v =>
    if k2 = k then (k, v) :: rest else (k2, v2) :: mapUpsert rest k v

/-- Effect of `os.RemoveAll (dir/n)` on the listing of `dir`: every binding
of the name `n` disappears, every other binding stays. -/
def removeAllName {β : Type} : List (GoStr × β) → GoStr → List (GoStr × β)
  | [], _ => []
  | (k, v) :: rest, n =>
    if k = n then removeAllName rest n else (k, v) :: removeAllName rest n

def dotGit : GoStr := [46, 103, 105, 116]
def dotGitignore : GoStr := [46, 103, 105, 116, 105, 103, 110, 111, 114, 101]

/-- The names `moveGitMetadata` moves: prefix `.git`, but not exactly
`.gitignore` (main.go:419-424). -/
def movedName (n : GoStr) : Bool :=
  strStartsWith n dotGit && !(n == dotGitignore)

def errNoGitDir : GoError := .simple [30]  -- "cloned gist did not include a .git directory"
def tagMoveFail : GoStr := [31]            -- remediation wrapper at main.go:400-407
def tagCloneFail : GoStr := [32]           -- clone-failure wrapper at main.go:387-395

/-- The `for _, entry := range entries` loop of `moveGitMetadata`
(main.go:417-436), iterating over the snapshot listing `l` returned by
`os.ReadDir` while threading the clone-directory listing `f`, the
target-directory listing `t`, and the `movedGitDir` flag. `os.RemoveAll` of
the destination and the same-filesystem rename inside `moveFileOrDir` are
modeled as succeeding; the mover's own failure modes are treated separately
with `moveFileOrDir`. -/
def moveGitLoop :
    List (GoStr × FSNode) → List (GoStr × FSNode) → List (GoStr × FSNode) → Bool →
    List (GoStr × FSNode) × List (GoStr × FSNode) × Bool
  | [], f, t, moved => (f, t, moved)
  | (n, node) :: rest, f, t, moved =>
    if strStartsWith n dotGit = false then moveGitLoop rest f t moved
    else if n = dotGitignore then moveGitLoop rest f t moved
    else
      moveGitLoop rest (removeAllName f n) (removeAllName t n ++ [(n, node)])
        (moved || n == dotGit)

/-- Embedding of `moveGitMetadata` (main.go:411-441): result is
(error?, final clone listing, final target listing). The error is produced
after the loop when no entry named exactly `.git` was moved. -/
def moveGitMetadata (fromE toE : List (GoStr × FSNode)) :
    Option GoError × List (GoStr × FSNode) × List (GoStr × FSNode) :=
  let r := moveGitLoop fromE fromE toE false
  (if r.2.2 then none else some errNoGitDir, r.1, r.2.1)

/-- Embedding of `cloneGistMetadata` (main.go:375-409) from the point where the
`gh gist clone` subprocess has run: `cloneExit` is the `cmd.Run()` result. On
non-zero exit the wrapped transport error is returned and nothing is merged;
on exit zero `moveGitMetadata` runs, its failure wrapped with the remediation
text (main.go:400-407). -/
def cloneGistMetadata (cloneExit : Option GoError)
    (cloneE targetE : List (GoStr × FSNode)) :
    Option GoError × List (GoStr × FSNode) × List (GoStr × FSNode) :=
  match cloneExit with
  | some e => (some (.wrapped tagCloneFail e), cloneE, targetE)
  | none =>
    match moveGitMetadata cloneE targetE with
    | (some e, f, t) => (some (.wrapped tagMoveFail e), f, t)
    | (none, f, t) => (none, f, t)

/-- Kind of a directory entry as the filesystem reports it. For a symlink the
kind of its target is carried only so that claims can speak about "a symlink
targeting a directory": `os.DirEntry.Info` is documented to describe the link
itself (lstat), never the target, and the code never resolves the target. -/
inductive EntryKind : Type where
  | regular
  | directory
  | symlink (targetIsDir : Bool)
  | other
deriving DecidableEq

/-- Go `entry.Type() & os.ModeSymlink != 0` for a `ReadDir` entry. -/
def typeIsSymlink : EntryKind → Bool
  | .symlink _ => true
  | _ => false

/-- Go `info.IsDir()` where `info, _ := entry.Info()`. Per the `os.DirEntry`
contract, `Info` describes the entry itself: for a symlink it reports the link
(mode `ModeSymlink`), so `IsDir()` is false whatever the link targets. -/
def infoIsDir : EntryKind → Bool
  | .directory => true
  | _ => false

/-- Go `info.Mode().IsRegular()` on the same lstat-like `info`. -/
def infoIsRegular : EntryKind → Bool
  | .regular => true
  | _ => false

structure dirEntry : Type where
  name : GoStr
  kind : EntryKind
  content : GoStr  -- the bytes os.ReadFile returns for a regular entry
deriving DecidableEq

structure filePayload : Type where
  Name : GoStr
  Path : GoStr
  Content : GoStr
deriving DecidableEq

/-- Postcondition order of `sort.Slice(entries, ...Name() < ...Name())`
(main.go:293-295): no later entry is strictly below an earlier one. -/
def entryLe (a b : dirEntry) : Prop := strLt b.name a.name = false

instance : DecidableRel entryLe := fun a b => by unfold entryLe; infer_instance

/-- The sort at main.go:293-295. `sort.Slice` is unstable, but names of
entries of one directory are pairwise distinct, so the sorted listing is
unique and `insertionSort` with the same comparator produces exactly it. -/
def sortEntries (es : List dirEntry) : List dirEntry := List.insertionSort entryLe es

def errSymlinkDir (n : GoStr) : GoError := .simple (10 :: n)  -- main.go:302-304
def errSubdir (n : GoStr) : GoError := .simple (11 :: n)      -- main.go:305-307

/-- The entry loop of `gatherFiles` (main.go:297-323), over the sorted
entries: symlink-to-directory check, directory check, dotfile skip,
non-regular skip, then read and queue the payload. -/
def collectLoop (dir : GoStr) : List dirEntry → Except GoError (List filePayload)
  | [] => .ok []
  | e :: rest =>
    if typeIsSymlink e.kind && infoIsDir e.kind then .error (errSymlinkDir e.name)
    else if infoIsDir e.kind then .error (errSubdir e.name)
    else if startsWithDot e.name then collectLoop dir rest
    else if !(infoIsRegular e.kind) then collectLoop dir rest
    else
      match collectLoop dir rest with
      | .error er => .error er
      | .ok fs => .ok (⟨e.name, joinPath dir e.name, e.content⟩ :: fs)

/-- Go `fmt.Sprintf("%s.md", name)` (main.go:337-339). -/
def defaultFileName (nm : GoStr) : GoStr := nm ++ [46, 109, 100]

/-- Embedding of `gatherFiles` (main.go:288-335). Returns the payload list
plus the bootstrap file written to disk by `os.WriteFile` when the collected
list was empty (`none` when nothing was written). -/
def gatherFiles (dir displayName : GoStr) (entries : List dirEntry) :
    Except GoError (List filePayload × Option filePayload) :=
  match collectLoop dir (sortEntries entries) with
  | .error e => .error e
  | .ok fs =>
    if fs.isEmpty then
      let nm := defaultFileName displayName
      let p : filePayload := ⟨nm, joinPath dir nm, [35, 32] ++ displayName ++ [10]⟩
      .ok ([p], some p)
    else .ok (fs, none)

structure gistFile : Type where
  Content : GoStr
deriving DecidableEq

structure gistCreateRequest : Type where
  description : GoStr  -- "" when the -d flag was absent (the omitempty zero value)
  public : Bool
  files : List (GoStr × gistFile)  -- the Go map, modeled as an association list
deriving DecidableEq

/-- The request-building loop of `createGist` (main.go:341-351):
`req.Files[f.Name] = gistFile{Content: string(f.Content)}` for each payload. -/
def buildFiles (fs : List filePayload) : List (GoStr × gistFile) :=
  fs.foldl (fun m f => mapUpsert m f.Name ⟨f.Content⟩) []

def buildGistRequest (fs : List filePayload) (pub : Bool) (desc : GoStr) :
    gistCreateRequest :=
  ⟨desc, pub, buildFiles fs⟩

/-- The `run` pipeline fragment from file collection to request construction
(main.go:116-131 with main.go:341-361): an error from `gatherFiles` returns
before `createGist` is ever called, so no request is built and no network
call happens; otherwise the request `createGist` POSTs is built. -/
def collectAndBuild (dir displayName : GoStr) (entries : List dirEntry)
    (pub : Bool) (desc : GoStr) : Except GoError gistCreateRequest :=
  match gatherFiles dir displayName entries with
  | .error e => .error e
  | .ok (fs, _) => .ok (buildGistRequest fs pub desc)

/-- Is `c` a UTF-8 continuation byte (0x80..0xBF)? -/
def isCont (c : Nat) : Bool := 128 ≤ c && c ≤ 191

/-- Admissible range of the first continuation byte after lead byte `b`, the
acceptRanges table of Go's unicode/utf8 package (rules out overlong encodings
and surrogates). Later continuation bytes use the plain 0x80..0xBF range. -/
def firstContOK (b c : Nat) : Bool :=
  if b = 224 then 160 ≤ c && c ≤ 191
  else if b = 237 then 128 ≤ c && c ≤ 159
  else if b = 240 then 144 ≤ c && c ≤ 191
  else if b = 244 then 128 ≤ c && c ≤ 143
  else isCont c

/-- The UTF-8 encoding of U+FFFD, which encoding/json emits in place of each
byte at which decoding fails. -/
def repl : GoStr := [239, 191, 189]

/-- Net effect on a Go string of marshalling it as a JSON string and parsing
that back (encoding/json): all escaping is invertible, but the encoder
replaces every byte at which `utf8.DecodeRune` yields `(RuneError, 1)` with
U+FFFD. Following Go's decoder: ASCII passes; a well-formed 2-, 3- or 4-byte
sequence passes; otherwise exactly one byte is consumed and U+FFFD emitted. -/
def toValidUTF8 : GoStr → GoStr
  | [] => []
  | b :: s =>
    if b ≤ 127 then b :: toValidUTF8 s
    else if 194 ≤ b && b ≤ 223 then
      match s with
      | c :: s2 =>
        if isCont c then b :: c :: toValidUTF8 s2
        else repl ++ toValidUTF8 (c :: s2)
      | [] => repl
    else if 224 ≤ b && b ≤ 239 then
      match s with
      | c1 :: c2 :: s2 =>
        if firstContOK b c1 && isCont c2 then b :: c1 :: c2 :: toValidUTF8 s2
        else repl ++ toValidUTF8 (c1 :: c2 :: s2)
      | [c1] => repl ++ toValidUTF8 [c1]
      | [] => repl
    else if 240 ≤ b && b ≤ 244 then
      match s with
      | c1 :: c2 :: c3 :: s2 =>
        if firstContOK b c1 && isCont c2 && isCont c3 then
          b :: c1 :: c2 :: c3 :: toValidUTF8 s2
        else repl ++ toValidUTF8 (c1 :: c2 :: c3 :: s2)
      | [c1, c2] => repl ++ toValidUTF8 [c1, c2]
      | [c1] => repl ++ toValidUTF8 [c1]
      | [] => repl
    else repl ++ toValidUTF8 s

/-- Validity of a byte string under the same decoder (Go `utf8.Valid`). A Go
string is valid UTF-8 exactly when decoding never hits `(RuneError, 1)`,
which is exactly when the encoder's replacement pass rewrites nothing; the
model uses this fixpoint characterization of the one decoder `toValidUTF8`
so that a single definition carries the decoding rules. -/
def utf8Valid (s : GoStr) : Bool := toValidUTF8 s == s

/-- Ascending order on map keys, the order in which encoding/json writes the
fields of a map-backed JSON object. -/
def pairKeyLe (p q : GoStr × gistFile) : Prop := strLt q.1 p.1 = false

instance : DecidableRel pairKeyLe := fun p q => by unfold pairKeyLe; infer_instance

/-- json.Marshal of the `files` map: keys sorted ascending, and every key and
every content string coerced to valid UTF-8 as it is written out. -/
def serializeFiles (m : List (GoStr × gistFile)) : List (GoStr × gistFile) :=
  (List.insertionSort pairKeyLe m).map fun p => (toValidUTF8 p.1, ⟨toValidUTF8 p.2.Content⟩)

/-- json.Unmarshal of a JSON object into a Go map: entries inserted in
textual order, a later duplicate key overwriting an earlier one. -/
def deserializeFiles (w : List (GoStr × gistFile)) : List (GoStr × gistFile) :=
  w.foldl (fun m p => mapUpsert m p.1 p.2) []

/-- The `files` mapping the remote reconstructs from the serialized
`GistRequest` built by `createGist` from the given payloads. -/
def filesRoundTrip (fs : List filePayload) : List (GoStr × gistFile) :=
  deserializeFiles (serializeFiles (buildFiles fs))

/-! ## Claim theorems and supporting lemmas -/

/-- C9: `validateName` accepts a name exactly when it is not empty, not `..`,
contains no path-separator byte, and does not start with `-`; in particular
the single value `.` is always accepted. The embedding is a pure function, so
validation performs no filesystem access and has no side effects. -/
theorem validateName_rejects_exactly :
    (∀ n : GoStr, validateName n = none ↔
      ¬(n = [] ∨ n = [46, 46] ∨ containsSep n = true ∨ strStartsWith n [45] = true)) ∧
    validateName [46] = none := by
  refine ⟨fun n => ?_, by decide⟩
  unfold validateName
  split_ifs with h1 h2 h3 h4 h5 <;> first
  | (subst_vars; decide)
  | simp_all

/-- C1: counter-evaluation for the claim that the copy-then-delete fallback is
taken only when the rename failed with the cross-device condition. Here
`os.Rename` failed with a `*os.LinkError` carrying errno EACCES (13), not
EXDEV (18); the claim says such a failure is returned unchanged, yet
`moveFileOrDir` runs the whole fallback on it and reports success, because
`errors.As(err, &linkErr)` succeeds for every `os.Rename` failure and the
errno inside is never compared against EXDEV. -/
theorem moveFileOrDir_nonExdev_takes_fallback :
    13 ≠ EXDEV ∧
    moveFileOrDir (some (.linkError 13)) (.dir 493 []) = .ok (.dir 493 []) :=
  ⟨by decide, rfl⟩

/-- C2: counter-evaluation for the claim that the cross-device fallback
reproduces a single-regular-file source at the destination and then removes
the source. For a regular-file source (mode 0o644, content "hi") whose rename
failed with EXDEV, `copyDir` stats the file, creates a directory at the
destination via `os.MkdirAll`, and then `os.ReadDir(src)` fails with ENOTDIR:
the move returns the wrapped copy error instead of producing a destination
identical to the source, and the source subtree is never removed. -/
theorem moveFileOrDir_file_fallback_fails :
    moveFileOrDir (some (.linkError EXDEV)) (.file 420 [104, 105]) =
      .error (.wrapped tagCopy errENOTDIR) := rfl

/-- C8: counter-evaluation for the claim that a symlink targeting a directory
makes file collection fail before any upload. For the listing
["link" (symlink to a directory), "a" (regular file, content "hi")] in
directory "d", collection succeeds -- `os.DirEntry.Info` is lstat-based and
never follows the link, so `info.IsDir()` is false and the symlink check at
main.go:302 cannot fire; the entry is silently skipped as non-regular -- and
the gist request that `createGist` would POST is built. -/
theorem collectAndBuild_symlink_dir_builds_request :
    collectAndBuild [100] [103]
        [⟨[108, 105, 110, 107], .symlink true, []⟩, ⟨[97], .regular, [104, 105]⟩]
        false [] =
      .ok ⟨[], false, [([97], ⟨[104, 105]⟩)]⟩ := rfl

/-- C10: counter-evaluation for the claim that a dot-named entry that is a
symlink targeting a directory is a fatal error rather than being skipped. For
the listing [".d" (symlink to a directory), "b" (regular file)] in directory
"d", collection succeeds and returns only the payload for "b": the directory
checks do precede the dot-prefix skip, but for a symlink `info.IsDir()` is
false (Info never follows the link), so the dot-named directory symlink is
silently skipped instead of producing the claimed fatal error. -/
theorem gatherFiles_dot_symlink_dir_skipped :
    gatherFiles [100] [103]
        [⟨[46, 100], .symlink true, []⟩, ⟨[98], .regular, [120]⟩] =
      .ok ([⟨[98], [100, 47, 98], [120]⟩], none) := rfl

theorem lookupKey_eq_none {β : Type} (l : List (GoStr × β)) (k : GoStr)
    (h : ∀ p ∈ l, p.1 ≠ k) : lookupKey k l = none := by
  induction l with
  | nil => rfl
  | cons p rest ih =>
    obtain ⟨m, v⟩ := p
    have hm : m ≠ k := h (m, v) (by simp)
    simp only [lookupKey, if_neg hm]
    exact ih fun q hq => h q (List.mem_cons_of_mem _ hq)

theorem lookupKey_cons_ne {β : Type} (m n : GoStr) (v : β) (l : List (GoStr × β))
    (h : m ≠ n) : lookupKey n ((m, v) :: l) = lookupKey n l := by
  simp [lookupKey, h]

theorem lookupKey_removeAll_self {β : Type} (l : List (GoStr × β)) (n : GoStr) :
    lookupKey n (removeAllName l n) = none := by
  induction l with
  | nil => rfl
  | cons p rest ih =>
    obtain ⟨m, v⟩ := p
    by_cases h : m = n
    · simp [removeAllName, h, ih]
    · simp [removeAllName, h, lookupKey, ih]

theorem lookupKey_removeAll_ne {β : Type} (l : List (GoStr × β)) (m n : GoStr)
    (h : n ≠ m) : lookupKey n (removeAllName l m) = lookupKey n l := by
  induction l with
  | nil => rfl
  | cons p rest ih =>
    obtain ⟨k, v⟩ := p
    by_cases hk : k = m
    · subst hk
      simp [removeAllName, lookupKey, Ne.symm h, ih]
    · by_cases hn : k = n
      · subst hn
        simp [removeAllName, hk, lookupKey]
      · simp [removeAllName, hk, lookupKey, hn, ih]

theorem lookupKey_append_none {β : Type} (l1 l2 : List (GoStr × β)) (k : GoStr)
    (h : lookupKey k l1 = none) : lookupKey k (l1 ++ l2) = lookupKey k l2 := by
  induction l1 with
  | nil => rfl
  | cons p rest ih =>
    obtain ⟨m, v⟩ := p
    by_cases hm : m = k
    · simp [lookupKey, hm] at h
    · simp only [List.cons_append, lookupKey, if_neg hm] at h ⊢
      exact ih h

theorem lookupKey_append_some {β : Type} (l1 l2 : List (GoStr × β)) (k : GoStr)
    (v : β) (h : lookupKey k l1 = some v) : lookupKey k (l1 ++ l2) = some v := by
  induction l1 with
  | nil => simp [lookupKey] at h
  | cons p rest ih =>
    obtain ⟨m, w⟩ := p
    by_cases hm : m = k
    · simp only [lookupKey, if_pos hm] at h
      simp only [List.cons_append, lookupKey, if_pos hm]
      exact h
    · simp only [lookupKey, if_neg hm] at h
      simp only [List.cons_append, lookupKey, if_neg hm]
      exact ih h

theorem lookupKey_removeAll_append_self {β : Type} (t : List (GoStr × β))
    (m : GoStr) (node : β) :
    lookupKey m (removeAllName t m ++ [(m, node)]) = some node := by
  rw [lookupKey_append_none _ _ _ (lookupKey_removeAll_self t m)]
  simp [lookupKey]

theorem lookupKey_removeAll_append_ne {β : Type} (t : List (GoStr × β))
    (m n : GoStr) (node : β) (h : n ≠ m) :
    lookupKey n (removeAllName t m ++ [(m, node)]) = lookupKey n t := by
  cases hc : lookupKey n (removeAllName t m) with
  | none =>
    rw [lookupKey_append_none _ _ _ hc]
    rw [lookupKey_removeAll_ne t m n h] at hc
    simp [lookupKey, Ne.symm h, hc]
  | some v =>
    rw [lookupKey_append_some _ _ _ _ hc]
    rw [lookupKey_removeAll_ne t m n h] at hc
    exact hc.symm

theorem moveGitLoop_flag (l : List (GoStr × FSNode)) :
    ∀ (f t : List (GoStr × FSNode)) (moved : Bool),
      (∀ p ∈ l, p.1 ≠ dotGit) → (moveGitLoop l f t moved).2.2 = moved := by
  induction l with
  | nil => intro f t moved _; rfl
  | cons p rest ih =>
    intro f t moved h
    obtain ⟨n, node⟩ := p
    have hn : n ≠ dotGit := h (n, node) (by simp)
    have hrest : ∀ q ∈ rest, q.1 ≠ dotGit := fun q hq => h q (List.mem_cons_of_mem _ hq)
    unfold moveGitLoop
    split_ifs with h1 h2
    · exact ih _ _ _ hrest
    · exact ih _ _ _ hrest
    · have hb : (n == dotGit) = false := by simp [hn]
      rw [hb, Bool.or_false]
      exact ih _ _ _ hrest

theorem moveGitLoop_lookup (n : GoStr) (l : List (GoStr × FSNode)) :
    ∀ (f t : List (GoStr × FSNode)) (moved : Bool),
      l.Pairwise (fun p q => p.1 ≠ q.1) →
      ((movedName n = true →
        ((lookupKey n l).isSome = true →
          lookupKey n (moveGitLoop l f t moved).1 = none ∧
          lookupKey n (moveGitLoop l f t moved).2.1 = lookupKey n l) ∧
        (lookupKey n l = none →
          lookupKey n (moveGitLoop l f t moved).1 = lookupKey n f ∧
          lookupKey n (moveGitLoop l f t moved).2.1 = lookupKey n t)) ∧
      (movedName n = false →
        lookupKey n (moveGitLoop l f t moved).1 = lookupKey n f ∧
        lookupKey n (moveGitLoop l f t moved).2.1 = lookupKey n t)) := by
  induction l with
  | nil =>
    intro f t moved _
    exact ⟨fun _ => ⟨fun hs => by simp [lookupKey] at hs, fun _ => ⟨rfl, rfl⟩⟩,
      fun _ => ⟨rfl, rfl⟩⟩
  | cons p rest ih =>
    intro f t moved hnd
    obtain ⟨m, node⟩ := p
    have hm : ∀ q ∈ rest, m ≠ q.1 := (List.pairwise_cons.mp hnd).1
    have hnd2 : rest.Pairwise (fun p q => p.1 ≠ q.1) := (List.pairwise_cons.mp hnd).2
    by_cases h1 : strStartsWith m dotGit = false
    · have hmv : movedName m = false := by simp [movedName, h1]
      have hloop : moveGitLoop ((m, node) :: rest) f t moved = moveGitLoop rest f t moved := by
        simp only [moveGitLoop]
        rw [if_pos h1]
      have hne : ∀ hn : movedName n = true, m ≠ n := by
        intro hn he; rw [he, hn] at hmv; cases hmv
      rw [hloop]
      refine ⟨fun hn => ?_, fun hn => (ih f t moved hnd2).2 hn⟩
      rw [lookupKey_cons_ne _ _ _ _ (hne hn)]
      exact (ih f t moved hnd2).1 hn
    · rw [Bool.not_eq_false] at h1
      by_cases h2 : m = dotGitignore
      · have hmv : movedName m = false := by simp [movedName, h2]
        have hloop : moveGitLoop ((m, node) :: rest) f t moved = moveGitLoop rest f t moved := by
          simp only [moveGitLoop]
          rw [if_neg (by simp [h1]), if_pos h2]
        have hne : ∀ hn : movedName n = true, m ≠ n := by
          intro hn he; rw [he, hn] at hmv; cases hmv
        rw [hloop]
        refine ⟨fun hn => ?_, fun hn => (ih f t moved hnd2).2 hn⟩
        rw [lookupKey_cons_ne _ _ _ _ (hne hn)]
        exact (ih f t moved hnd2).1 hn
      · have hmv : movedName m = true := by simp [movedName, h1, h2]
        have hloop : moveGitLoop ((m, node) :: rest) f t moved =
            moveGitLoop rest (removeAllName f m) (removeAllName t m ++ [(m, node)])
              (moved || m == dotGit) := by
          simp only [moveGitLoop]
          rw [if_neg (by simp [h1]), if_neg h2]
        rw [hloop]
        by_cases hnm : n = m
        · subst hnm
          have hrest : lookupKey n rest = none :=
            lookupKey_eq_none _ _ fun q hq he => hm q hq he.symm
          have hih := ((ih (removeAllName f n) (removeAllName t n ++ [(n, node)])
            (moved || n == dotGit) hnd2).1 hmv).2 hrest
          constructor
          · intro _
            constructor
            · intro _
              refine ⟨?_, ?_⟩
              · rw [hih.1, lookupKey_removeAll_self]
              · rw [hih.2, lookupKey_removeAll_append_self]
                simp [lookupKey]
            · intro hnone
              simp [lookupKey] at hnone
          · intro hmv2; rw [hmv] at hmv2; cases hmv2
        · have hih := ih (removeAllName f m) (removeAllName t m ++ [(m, node)])
            (moved || m == dotGit) hnd2
          have hf : lookupKey n (removeAllName f m) = lookupKey n f :=
            lookupKey_removeAll_ne _ _ _ hnm
          have ht : lookupKey n (removeAllName t m ++ [(m, node)]) = lookupKey n t :=
            lookupKey_removeAll_append_ne _ _ _ _ hnm
          have hl : lookupKey n ((m, node) :: rest) = lookupKey n rest :=
            lookupKey_cons_ne _ _ _ _ fun he => hnm he.symm
          rw [hl]
          refine ⟨fun hn => ?_, fun hn => ?_⟩
          · refine ⟨fun hs => ?_, fun hnone => ?_⟩
            · exact (hih.1 hn).1 hs
            · have := (hih.1 hn).2 hnone
              rw [hf, ht] at this
              exact this
          · have := hih.2 hn
            rw [hf, ht] at this
            exact this

/-- C4: the metadata merge moves into the target exactly the cloned entries
whose name begins with `.git`, except the entry named exactly `.gitignore`;
for each moved name any pre-existing target entry of that name is replaced by
the cloned subtree and the name disappears from the clone listing; every
other name is left untouched in both listings. `hnd` is the filesystem
invariant that entry names of one directory are pairwise distinct. -/
theorem moveGitMetadata_moves_exactly (fromE toE : List (GoStr × FSNode))
    (hnd : fromE.Pairwise (fun p q => p.1 ≠ q.1)) :
    (∀ n, movedName n = true →
      lookupKey n (moveGitMetadata fromE toE).2.1 = none ∧
      lookupKey n (moveGitMetadata fromE toE).2.2 =
        (match lookupKey n fromE with
         | some v => some v
         | none => lookupKey n toE)) ∧
    (∀ n, movedName n = false →
      lookupKey n (moveGitMetadata fromE toE).2.1 = lookupKey n fromE ∧
      lookupKey n (moveGitMetadata fromE toE).2.2 = lookupKey n toE) := by
  have hproj1 : (moveGitMetadata fromE toE).2.1 = (moveGitLoop fromE fromE toE false).1 := rfl
  have hproj2 : (moveGitMetadata fromE toE).2.2 = (moveGitLoop fromE fromE toE false).2.1 := rfl
  rw [hproj1, hproj2]
  constructor
  · intro n hn
    cases hs : lookupKey n fromE with
    | some v =>
      have h := ((moveGitLoop_lookup n fromE fromE toE false hnd).1 hn).1 (by rw [hs]; rfl)
      exact ⟨h.1, by rw [h.2, hs]⟩
    | none =>
      have h := ((moveGitLoop_lookup n fromE fromE toE false hnd).1 hn).2 hs
      exact ⟨by rw [h.1, hs], h.2⟩
  · intro n hn
    exact (moveGitLoop_lookup n fromE fromE toE false hnd).2 hn

/-- Witness for C4 at a concrete clone listing containing only `.git`. -/
theorem moveGitMetadata_moves_exactly_witness :
    ([(dotGit, FSNode.file 493 [])].Pairwise (fun p q => p.1 ≠ q.1)) ∧
    ((∀ n, movedName n = true →
      lookupKey n (moveGitMetadata [(dotGit, FSNode.file 493 [])] []).2.1 = none ∧
      lookupKey n (moveGitMetadata [(dotGit, FSNode.file 493 [])] []).2.2 =
        (match lookupKey n [(dotGit, FSNode.file 493 [])] with
         | some v => some v
         | none => lookupKey n ([] : List (GoStr × FSNode)))) ∧
    (∀ n, movedName n = false →
      lookupKey n (moveGitMetadata [(dotGit, FSNode.file 493 [])] []).2.1 =
        lookupKey n [(dotGit, FSNode.file 493 [])] ∧
      lookupKey n (moveGitMetadata [(dotGit, FSNode.file 493 [])] []).2.2 =
        lookupKey n ([] : List (GoStr × FSNode)))) :=
  ⟨by simp, moveGitMetadata_moves_exactly _ _ (by simp)⟩

/-- C5: when the clone subprocess exited zero but the cloned directory holds
no entry literally named `.git`, metadata reconciliation fails: the merge
loop never sets `movedGitDir`, `moveGitMetadata` reports the missing-`.git`
error, and `cloneGistMetadata` returns it wrapped in the remediation text. -/
theorem cloneGistMetadata_fails_without_gitdir
    (cloneE targetE : List (GoStr × FSNode))
    (h : ∀ p ∈ cloneE, p.1 ≠ dotGit) :
    (cloneGistMetadata none cloneE targetE).1 =
      some (.wrapped tagMoveFail errNoGitDir) := by
  have hflag : (moveGitLoop cloneE cloneE targetE false).2.2 = false :=
    moveGitLoop_flag cloneE cloneE targetE false h
  simp [cloneGistMetadata, moveGitMetadata, hflag]

/-- Witness for C5: a clone listing holding `.gitignore` and `.gitconfig` but
no `.git`. -/
theorem cloneGistMetadata_fails_without_gitdir_witness :
    (∀ p ∈ [(dotGitignore, FSNode.file 420 []),
            ([46, 103, 105, 116, 99, 111, 110, 102, 105, 103], FSNode.file 420 [])],
      p.1 ≠ dotGit) ∧
    (cloneGistMetadata none
        [(dotGitignore, FSNode.file 420 []),
         ([46, 103, 105, 116, 99, 111, 110, 102, 105, 103], FSNode.file 420 [])] []).1 =
      some (.wrapped tagMoveFail errNoGitDir) :=
  ⟨by decide, cloneGistMetadata_fails_without_gitdir _ _ (by decide)⟩

theorem collectLoop_all_skip (dir : GoStr) (l : List dirEntry)
    (h : ∀ e ∈ l, infoIsDir e.kind = false ∧
      (startsWithDot e.name = true ∨ infoIsRegular e.kind = false)) :
    collectLoop dir l = .ok [] := by
  induction l with
  | nil => rfl
  | cons e rest ih =>
    have he := h e (by simp)
    have hrest : ∀ x ∈ rest, infoIsDir x.kind = false ∧
        (startsWithDot x.name = true ∨ infoIsRegular x.kind = false) :=
      fun x hx => h x (List.mem_cons_of_mem _ hx)
    simp only [collectLoop]
    rw [if_neg (by simp [he.1]), if_neg (by simp [he.1])]
    rcases he.2 with hd | hr
    · rw [if_pos hd]
      exact ih hrest
    · by_cases hd : startsWithDot e.name = true
      · rw [if_pos hd]
        exact ih hrest
      · rw [if_neg hd, if_pos (by simp [hr])]
        exact ih hrest

/-- C6: for a directory whose entries are all skipped by the collection policy
(each entry is not a directory, and is either dot-named or not a regular
file), `gatherFiles` bootstraps exactly one payload named
`<displayName>.md` whose content is `# <displayName>\n`, and reports that
this file was written to disk at its path inside the target directory. -/
theorem gatherFiles_bootstraps_when_no_regular (dir disp : GoStr) (es : List dirEntry)
    (h : ∀ e ∈ es, infoIsDir e.kind = false ∧
      (startsWithDot e.name = true ∨ infoIsRegular e.kind = false)) :
    gatherFiles dir disp es =
      .ok ([⟨defaultFileName disp, joinPath dir (defaultFileName disp),
            [35, 32] ++ disp ++ [10]⟩],
        some ⟨defaultFileName disp, joinPath dir (defaultFileName disp),
            [35, 32] ++ disp ++ [10]⟩) := by
  have hmem : ∀ e ∈ sortEntries es, infoIsDir e.kind = false ∧
      (startsWithDot e.name = true ∨ infoIsRegular e.kind = false) :=
    fun e he => h e ((List.perm_insertionSort entryLe es).subset he)
  have hc := collectLoop_all_skip dir (sortEntries es) hmem
  simp [gatherFiles, hc]

/-- Witness for C6: a directory holding one dotfile and one socket-like
non-regular entry, display name "g", target directory "d". -/
theorem gatherFiles_bootstraps_when_no_regular_witness :
    (∀ e ∈ [(⟨[46, 97], EntryKind.regular, [120]⟩ : dirEntry),
            ⟨[115], EntryKind.other, []⟩],
      infoIsDir e.kind = false ∧
      (startsWithDot e.name = true ∨ infoIsRegular e.kind = false)) ∧
    gatherFiles [100] [103]
        [⟨[46, 97], EntryKind.regular, [120]⟩, ⟨[115], EntryKind.other, []⟩] =
      .ok ([⟨defaultFileName [103], joinPath [100] (defaultFileName [103]),
            [35, 32] ++ [103] ++ [10]⟩],
        some ⟨defaultFileName [103], joinPath [100] (defaultFileName [103]),
            [35, 32] ++ [103] ++ [10]⟩) :=
  ⟨by decide, gatherFiles_bootstraps_when_no_regular _ _ _ (by decide)⟩

theorem strLt_asymm (s : GoStr) : ∀ t : GoStr, strLt s t = true → strLt t s = false := by
  induction s with
  | nil =>
    intro t _
    cases t with
    | nil => rfl
    | cons b t2 => rfl
  | cons a s ih =>
    intro t h
    cases t with
    | nil => simp [strLt] at h
    | cons b t2 =>
      simp only [strLt] at h ⊢
      by_cases h1 : a < b
      · rw [if_neg (by omega), if_pos h1]
      · rw [if_neg h1] at h
        by_cases h2 : b < a
        · rw [if_pos h2] at h; cases h
        · rw [if_neg h2] at h
          rw [if_neg h2, if_neg h1]
          exact ih t2 h

theorem strLt_trans (s : GoStr) : ∀ t u : GoStr,
    strLt s t = true → strLt t u = true → strLt s u = true := by
  induction s with
  | nil =>
    intro t u h1 h2
    cases u with
    | nil =>
      cases t with
      | nil => exact h1
      | cons b t2 => simp [strLt] at h2
    | cons c u2 => rfl
  | cons a s ih =>
    intro t u h1 h2
    cases t with
    | nil => simp [strLt] at h1
    | cons b t2 =>
      cases u with
      | nil => simp [strLt] at h2
      | cons c u2 =>
        simp only [strLt] at h1 h2 ⊢
        by_cases hab : a < b
        · by_cases hbc : b < c
          · rw [if_pos (by omega)]
          · rw [if_neg hbc] at h2
            by_cases hcb : c < b
            · rw [if_pos hcb] at h2; cases h2
            · have hbceq : b = c := by omega
              subst hbceq
              rw [if_pos hab]
        · rw [if_neg hab] at h1
          by_cases hba : b < a
          · rw [if_pos hba] at h1; cases h1
          · rw [if_neg hba] at h1
            have habeq : a = b := by omega
            subst habeq
            by_cases hac : a < c
            · rw [if_pos hac]
            · rw [if_neg hac] at h2 ⊢
              by_cases hca : c < a
              · rw [if_pos hca] at h2; cases h2
              · rw [if_neg hca] at h2 ⊢
                exact ih t2 u2 h1 h2

theorem strLt_total (s : GoStr) : ∀ t : GoStr, s ≠ t →
    strLt s t = true ∨ strLt t s = true := by
  induction s with
  | nil =>
    intro t h
    cases t with
    | nil => exact absurd rfl h
    | cons b t2 => exact Or.inl rfl
  | cons a s ih =>
    intro t h
    cases t with
    | nil => exact Or.inr rfl
    | cons b t2 =>
      by_cases hab : a < b
      · exact Or.inl (by simp only [strLt]; rw [if_pos hab])
      · by_cases hba : b < a
        · exact Or.inr (by simp only [strLt]; rw [if_pos hba])
        · have habeq : a = b := by omega
          subst habeq
          have hst : s ≠ t2 := fun he => h (by rw [he])
          rcases ih t2 hst with h1 | h1
          · exact Or.inl (by simp only [strLt]; rw [if_neg hab, if_neg hba]; exact h1)
          · exact Or.inr (by simp only [strLt]; rw [if_neg hba, if_neg hab]; exact h1)

theorem entryLe_total (a b : dirEntry) : entryLe a b ∨ entryLe b a := by
  unfold entryLe
  by_cases h : strLt b.name a.name = true
  · exact Or.inr (strLt_asymm _ _ h)
  · exact Or.inl (by revert h; cases strLt b.name a.name <;> simp)

theorem entryLe_trans (a b c : dirEntry) (h1 : entryLe a b) (h2 : entryLe b c) :
    entryLe a c := by
  unfold entryLe at h1 h2 ⊢
  by_contra hc
  have hca : strLt c.name a.name = true := by
    revert hc; cases strLt c.name a.name <;> simp
  by_cases he : c.name = b.name
  · rw [he] at hca; rw [hca] at h1; cases h1
  · rcases strLt_total _ _ he with h3 | h3
    · rw [h3] at h2; cases h2
    · have h4 := strLt_trans _ _ _ h3 hca
      rw [h4] at h1; cases h1

theorem sorted_names_strict (l : List dirEntry)
    (hs : List.Sorted entryLe l)
    (hd : l.Pairwise (fun a b => a.name ≠ b.name)) :
    l.Pairwise (fun a b => strLt a.name b.name = true) := by
  refine (hs.and hd).imp ?_
  intro a b h
  rcases strLt_total a.name b.name h.2 with h1 | h1
  · exact h1
  · have h2 := h.1
    unfold entryLe at h2
    rw [h1] at h2
    cases h2

theorem sortEntries_names_strict (es : List dirEntry)
    (hnames : (es.map dirEntry.name).Pairwise (fun a b => a ≠ b)) :
    (sortEntries es).Pairwise (fun a b => strLt a.name b.name = true) := by
  haveI : IsTotal dirEntry entryLe := ⟨entryLe_total⟩
  haveI : IsTrans dirEntry entryLe := ⟨entryLe_trans⟩
  have hnd : es.Pairwise (fun a b : dirEntry => a.name ≠ b.name) :=
    List.pairwise_map.mp hnames
  have hnd1 : (sortEntries es).Pairwise (fun a b : dirEntry => a.name ≠ b.name) :=
    ((List.perm_insertionSort entryLe es).pairwise_iff
      (fun {x y} h => h.symm)).mpr hnd
  exact sorted_names_strict _ (List.sorted_insertionSort entryLe es) hnd1

theorem sortEntries_eq_of_perm (es esAlt : List dirEntry)
    (hp : esAlt.Perm es)
    (hnames : (es.map dirEntry.name).Pairwise (fun a b => a ≠ b)) :
    sortEntries esAlt = sortEntries es := by
  haveI : IsTotal dirEntry entryLe := ⟨entryLe_total⟩
  haveI : IsTrans dirEntry entryLe := ⟨entryLe_trans⟩
  haveI : IsAntisymm dirEntry (fun a b : dirEntry => strLt a.name b.name = true) :=
    ⟨fun a b h1 h2 => by
      have h3 := strLt_asymm _ _ h1
      rw [h2] at h3; cases h3⟩
  have hnamesAlt : (esAlt.map dirEntry.name).Pairwise (fun a b => a ≠ b) := by
    refine ((hp.map dirEntry.name).pairwise_iff (fun {x y} h => h.symm)).mpr hnames
  have hps : (sortEntries esAlt).Perm (sortEntries es) :=
    (List.perm_insertionSort entryLe esAlt).trans
      (hp.trans (List.perm_insertionSort entryLe es).symm)
  exact List.eq_of_perm_of_sorted hps
    (sortEntries_names_strict esAlt hnamesAlt)
    (sortEntries_names_strict es hnames)

theorem collectLoop_all_regular (dir : GoStr) (l : List dirEntry)
    (h : ∀ e ∈ l, e.kind = EntryKind.regular ∧ startsWithDot e.name = false) :
    collectLoop dir l =
      .ok (l.map fun e => ⟨e.name, joinPath dir e.name, e.content⟩) := by
  induction l with
  | nil => rfl
  | cons e rest ih =>
    have he := h e (by simp)
    have hrest : ∀ x ∈ rest, x.kind = EntryKind.regular ∧ startsWithDot x.name = false :=
      fun x hx => h x (List.mem_cons_of_mem _ hx)
    simp only [collectLoop]
    rw [if_neg (by rw [he.1]; decide), if_neg (by rw [he.1]; decide),
      if_neg (by simp [he.2]), if_neg (by rw [he.1]; decide), ih hrest]
    rfl

/-- C7: for a directory of regular, non-dot entries (names pairwise distinct,
as directory listings guarantee), the payload sequence `gatherFiles` produces
is the same for every enumeration order the filesystem may return, and its
payloads are strictly sorted lexicographically by name. -/
theorem gatherFiles_sorted_and_order_independent (dir disp : GoStr)
    (es esAlt : List dirEntry)
    (hperm : esAlt.Perm es)
    (hnames : (es.map dirEntry.name).Pairwise (fun a b => a ≠ b))
    (hflat : ∀ e ∈ es, e.kind = EntryKind.regular ∧ startsWithDot e.name = false)
    (hne : es ≠ []) :
    gatherFiles dir disp esAlt = gatherFiles dir disp es ∧
    ∃ fs, gatherFiles dir disp es = .ok (fs, none) ∧
      (fs.map filePayload.Name).Pairwise (fun a b => strLt a b = true) := by
  have hsort : sortEntries esAlt = sortEntries es := sortEntries_eq_of_perm es esAlt hperm hnames
  constructor
  · simp only [gatherFiles, hsort]
  · have hmem : ∀ e ∈ sortEntries es, e.kind = EntryKind.regular ∧ startsWithDot e.name = false :=
      fun e he => hflat e ((List.perm_insertionSort entryLe es).subset he)
    have hc := collectLoop_all_regular dir (sortEntries es) hmem
    have hsne : sortEntries es ≠ [] := by
      intro h0
      have hp2 : es.Perm ([] : List dirEntry) := by
        have hp3 := (List.perm_insertionSort entryLe es).symm
        rw [show List.insertionSort entryLe es = sortEntries es from rfl, h0] at hp3
        exact hp3
      exact hne hp2.eq_nil
    refine ⟨(sortEntries es).map (fun e => ⟨e.name, joinPath dir e.name, e.content⟩), ?_, ?_⟩
    · cases hse : sortEntries es with
      | nil => exact absurd hse hsne
      | cons e0 rest0 =>
        rw [hse] at hc
        simp [gatherFiles, hse, hc]
    · have hstrict := sortEntries_names_strict es hnames
      rw [List.map_map]
      exact List.pairwise_map.mpr hstrict

/-- Witness for C7: listings ["b", "a"] and ["a", "b"] of the same directory. -/
theorem gatherFiles_sorted_and_order_independent_witness :
    (([(⟨[97], EntryKind.regular, [120]⟩ : dirEntry),
       ⟨[98], EntryKind.regular, [121]⟩]).Perm
      [⟨[98], EntryKind.regular, [121]⟩, ⟨[97], EntryKind.regular, [120]⟩]) ∧
    (gatherFiles [100] [103]
        [⟨[97], EntryKind.regular, [120]⟩, ⟨[98], EntryKind.regular, [121]⟩] =
      gatherFiles [100] [103]
        [⟨[98], EntryKind.regular, [121]⟩, ⟨[97], EntryKind.regular, [120]⟩] ∧
    ∃ fs, gatherFiles [100] [103]
        [⟨[98], EntryKind.regular, [121]⟩, ⟨[97], EntryKind.regular, [120]⟩] =
          .ok (fs, none) ∧
      (fs.map filePayload.Name).Pairwise (fun a b => strLt a b = true)) :=
  ⟨by decide, gatherFiles_sorted_and_order_independent [100] [103] _ _
    (by decide) (by decide) (by decide) (by decide)⟩

theorem toValidUTF8_of_valid (s : GoStr) (h : utf8Valid s = true) :
    toValidUTF8 s = s := by
  unfold utf8Valid at h
  exact eq_of_beq h

theorem mapUpsert_absent {β : Type} (m : List (GoStr × β)) (k : GoStr) (v : β)
    (h : lookupKey k m = none) : mapUpsert m k v = m ++ [(k, v)] := by
  induction m with
  | nil => rfl
  | cons p rest ih =>
    obtain ⟨k2, v2⟩ := p
    by_cases hk : k2 = k
    · simp [lookupKey, hk] at h
    · simp only [lookupKey, if_neg hk] at h
      simp [mapUpsert, hk, ih h]

theorem upsertFold_eq {β : Type} (l : List (GoStr × β)) :
    ∀ acc : List (GoStr × β),
      (∀ p ∈ l, lookupKey p.1 acc = none) →
      l.Pairwise (fun p q => p.1 ≠ q.1) →
      l.foldl (fun m p => mapUpsert m p.1 p.2) acc = acc ++ l := by
  induction l with
  | nil => intro acc _ _; simp
  | cons p rest ih =>
    intro acc hfresh hnd
    obtain ⟨k, v⟩ := p
    have h1 : lookupKey k acc = none := hfresh (k, v) (by simp)
    simp only [List.foldl_cons]
    rw [mapUpsert_absent acc k v h1]
    have hfresh2 : ∀ q ∈ rest, lookupKey q.1 (acc ++ [(k, v)]) = none := by
      intro q hq
      have hqa : lookupKey q.1 acc = none := hfresh q (List.mem_cons_of_mem _ hq)
      have hqk : k ≠ q.1 := (List.pairwise_cons.mp hnd).1 q hq
      rw [lookupKey_append_none _ _ _ hqa]
      simp [lookupKey, hqk]
    rw [ih (acc ++ [(k, v)]) hfresh2 (List.pairwise_cons.mp hnd).2]
    simp

theorem lookupKey_perm {β : Type} {l1 l2 : List (GoStr × β)} (hp : l1.Perm l2) :
    ∀ k : GoStr, l1.Pairwise (fun p q => p.1 ≠ q.1) →
      lookupKey k l1 = lookupKey k l2 := by
  induction hp with
  | nil => intro k _; rfl
  | cons x hp2 ih =>
    intro k hnd
    obtain ⟨k2, v2⟩ := x
    by_cases hk : k2 = k
    · simp [lookupKey, hk]
    · simp only [lookupKey, if_neg hk]
      exact ih k (List.pairwise_cons.mp hnd).2
  | swap x y l =>
    intro k hnd
    obtain ⟨ka, va⟩ := x
    obtain ⟨kb, vb⟩ := y
    have hab : kb ≠ ka := (List.pairwise_cons.mp hnd).1 (ka, va) (by simp)
    by_cases h1 : kb = k
    · have h2 : ¬ ka = k := fun he => hab (by rw [h1, he])
      simp [lookupKey, h1, h2]
    · by_cases h2 : ka = k
      · simp [lookupKey, h1, h2]
      · simp [lookupKey, h1, h2]
  | trans hp1 hp2 ih1 ih2 =>
    intro k hnd
    have hnd2 := (hp1.pairwise_iff
      (fun {p q} (h : p.1 ≠ q.1) => h.symm)).mp hnd
    rw [ih1 k hnd, ih2 k hnd2]

theorem lookupKey_of_mem {β : Type} (l : List (GoStr × β)) (k : GoStr) (v : β)
    (hnd : l.Pairwise (fun p q => p.1 ≠ q.1)) (hm : (k, v) ∈ l) :
    lookupKey k l = some v := by
  induction l with
  | nil => cases hm
  | cons p rest ih =>
    obtain ⟨k2, v2⟩ := p
    rcases List.mem_cons.mp hm with he | hm2
    · cases he
      simp [lookupKey]
    · have hk : k2 ≠ k := (List.pairwise_cons.mp hnd).1 (k, v) hm2
      simp only [lookupKey, if_neg hk]
      exact ih (List.pairwise_cons.mp hnd).2 hm2

theorem deserializeFiles_eq (w : List (GoStr × gistFile))
    (hnd : w.Pairwise (fun p q => p.1 ≠ q.1)) : deserializeFiles w = w := by
  unfold deserializeFiles
  rw [upsertFold_eq w [] (fun p _ => rfl) hnd]
  simp

theorem serializeFiles_of_valid (m : List (GoStr × gistFile))
    (hv : ∀ p ∈ m, utf8Valid p.1 = true ∧ utf8Valid p.2.Content = true) :
    serializeFiles m = List.insertionSort pairKeyLe m := by
  unfold serializeFiles
  have hid : ∀ p ∈ List.insertionSort pairKeyLe m,
      (toValidUTF8 p.1, (⟨toValidUTF8 p.2.Content⟩ : gistFile)) = p := by
    intro p hp
    have hpm := (List.perm_insertionSort pairKeyLe m).subset hp
    have h2 := hv p hpm
    rw [toValidUTF8_of_valid _ h2.1, toValidUTF8_of_valid _ h2.2]
  rw [List.map_congr_left hid, List.map_id']

/-- C3 counterexample: a single payload named "a" whose content is the lone
byte 0xFF (not valid UTF-8). Its name set is trivially pairwise distinct, yet
after serialization and deserialization the files mapping binds "a" to the
UTF-8 encoding of U+FFFD ([239, 191, 189]) instead of the original bytes:
the claim's byte-identity fails for arbitrary byte contents because Go's
JSON encoder replaces invalid bytes with the replacement character. -/
theorem filesRoundTrip_not_byte_identical :
    (([(⟨[97], [], [255]⟩ : filePayload)].map filePayload.Name).Pairwise
      (fun a b => a ≠ b)) ∧
    ¬ ((filesRoundTrip [⟨[97], [], [255]⟩]).length = 1 ∧
       ∀ f ∈ [(⟨[97], [], [255]⟩ : filePayload)],
         lookupKey f.Name (filesRoundTrip [⟨[97], [], [255]⟩]) =
           some ⟨f.Content⟩) := by
  decide

/-- C3 (amended): for every sequence of payloads with pairwise-distinct names
whose names and contents are all valid UTF-8, the files mapping the remote
rebuilds from the serialized GistRequest has exactly one entry per payload,
keyed by the payload's name, with byte-identical content. (Without the
UTF-8-validity restriction the property fails; see the counterexample.) -/
theorem filesRoundTrip_valid_utf8 (fs : List filePayload)
    (hnd : (fs.map filePayload.Name).Pairwise (fun a b => a ≠ b))
    (hv : ∀ f ∈ fs, utf8Valid f.Name = true ∧ utf8Valid f.Content = true) :
    (filesRoundTrip fs).length = fs.length ∧
    ∀ f ∈ fs, lookupKey f.Name (filesRoundTrip fs) = some ⟨f.Content⟩ := by
  have hndf : fs.Pairwise (fun f g : filePayload => f.Name ≠ g.Name) :=
    List.pairwise_map.mp hnd
  have hkeys : (fs.map fun f => (f.Name, (⟨f.Content⟩ : gistFile))).Pairwise
      (fun p q => p.1 ≠ q.1) := List.pairwise_map.mpr hndf
  have hb : buildFiles fs = fs.map fun f => (f.Name, (⟨f.Content⟩ : gistFile)) := by
    unfold buildFiles
    have h1 := upsertFold_eq (fs.map fun f => (f.Name, (⟨f.Content⟩ : gistFile)))
      [] (fun p _ => rfl) hkeys
    rw [List.foldl_map] at h1
    simpa using h1
  have hperm : (List.insertionSort pairKeyLe
      (fs.map fun f => (f.Name, (⟨f.Content⟩ : gistFile)))).Perm
      (fs.map fun f => (f.Name, (⟨f.Content⟩ : gistFile))) :=
    List.perm_insertionSort _ _
  have hnds : (List.insertionSort pairKeyLe
      (fs.map fun f => (f.Name, (⟨f.Content⟩ : gistFile)))).Pairwise
      (fun p q => p.1 ≠ q.1) :=
    (hperm.pairwise_iff (fun {p q} (h : p.1 ≠ q.1) => h.symm)).mpr hkeys
  have hvm : ∀ p ∈ (fs.map fun f => (f.Name, (⟨f.Content⟩ : gistFile))),
      utf8Valid p.1 = true ∧ utf8Valid p.2.Content = true := by
    intro p hp
    obtain ⟨f, hf, rfl⟩ := List.mem_map.mp hp
    exact hv f hf
  have hrt : filesRoundTrip fs = List.insertionSort pairKeyLe
      (fs.map fun f => (f.Name, (⟨f.Content⟩ : gistFile))) := by
    unfold filesRoundTrip
    rw [hb, serializeFiles_of_valid _ hvm, deserializeFiles_eq _ hnds]
  constructor
  · rw [hrt, hperm.length_eq, List.length_map]
  · intro f hf
    rw [hrt, lookupKey_perm hperm f.Name hnds]
    exact lookupKey_of_mem _ f.Name ⟨f.Content⟩ hkeys
      (List.mem_map_of_mem _ hf)

/-- Witness for C3 (amended) at payloads named "b" and "a" (out of order, so
the serializer's key sort is exercised), with contents "x" and the valid
3-byte UTF-8 sequence for the euro sign. -/
theorem filesRoundTrip_valid_utf8_witness :
    ((([⟨[98], [], [120]⟩, ⟨[97], [], [226, 130, 172]⟩] : List filePayload).map
      filePayload.Name).Pairwise (fun a b => a ≠ b)) ∧
    (∀ f ∈ ([⟨[98], [], [120]⟩, ⟨[97], [], [226, 130, 172]⟩] : List filePayload),
      utf8Valid f.Name = true ∧ utf8Valid f.Content = true) ∧
    ((filesRoundTrip [⟨[98], [], [120]⟩, ⟨[97], [], [226, 130, 172]⟩]).length =
      ([⟨[98], [], [120]⟩, ⟨[97], [], [226, 130, 172]⟩] : List filePayload).length ∧
    ∀ f ∈ ([⟨[98], [], [120]⟩, ⟨[97], [], [226, 130, 172]⟩] : List filePayload),
      lookupKey f.Name
          (filesRoundTrip [⟨[98], [], [120]⟩, ⟨[97], [], [226, 130, 172]⟩]) =
        some ⟨f.Content⟩) :=
  ⟨by decide, by decide, filesRoundTrip_valid_utf8 _ (by decide) (by decide)⟩
